import Mathlib

/-!
Verification of the pirch IRC wire-format core
(`src/pirch/proto/irc/messages.py`, `src/pirch/proto/irc/commands.py`).

The Python code targets the Python-2 byte-string semantics used by the
repository (indexing a byte string yields a one-character string), so a
byte string is embedded as `List Char` and single-byte comparisons such
as `msg[i] == b' '` become `Char` equality.  Python exceptions become
`Except Err` results; the `util.unset` singleton used as an argument
placeholder becomes `none` in `Option`.
-/

/-- A Python byte string, one `Char` per byte. -/
abbrev Bytes := List Char

/-- Convert a Lean string literal to the byte-string embedding. -/
def ofStr (s : String) : Bytes := s.toList

/-- An entry of an argument sequence: `none` models the `util.unset`
placeholder, `some b` an actual byte-string value. -/
abbrev Val := Option Bytes

/-- The Python exceptions raised by the embedded code. -/
inductive Err where
  | keyError
  | unknownAttribute
  | indexOutOfRange
  | zeroStep
  | multipleTrailing
  | indexError
  | duplicateRegistration
  | duplicateArgument
deriving DecidableEq

/-! ### Tokenizer: `_argsplit` (messages.py lines 25-62)

The Python generator walks the message with an index `i` and a marker
`prev`: `prev = None` means "skipping spaces", `prev = p` means "inside
a token that began at `p`" (the token collected so far is `msg[p:i]`).
Here the collected token is carried directly as a reversed accumulator:
`some acc` corresponds to `prev = p` with `acc.reverse = msg[p:i]`, and
`none` corresponds to `prev = None`. -/

def argsplitGo : List Char → Option (List Char) → List (List Char)
  | [], none => []
  | [], some acc => [acc.reverse]
  | c :: rest, none =>
      if c = ' ' then argsplitGo rest none
      else if c = ':' then [rest]
      else argsplitGo rest (some [c])
  | c :: rest, some acc =>
      if c = ' ' then acc.reverse :: argsplitGo rest none
      else argsplitGo rest (some (c :: acc))

/-- `_argsplit(msg)`: the scan starts inside the first token
(`prev = 0`, i.e. an empty accumulator). -/
def argsplit (msg : Bytes) : List Bytes := argsplitGo msg (some [])

/-! ### Command model (commands.py)

`Argument` descriptors carry a name, a declared position and an optional
default (`none` models `util.unset`, i.e. no default).  The conversion
strategy embedded here is the base `Argument` class, whose `from_bytes`
and `to_bytes` are the identity. -/

structure ArgDesc where
  name : String
  idx : Int
  default : Option Bytes
deriving DecidableEq

/-- `Argument.to_bytes` (base class): returns the value unchanged. -/
def ArgDesc.to_bytes (_d : ArgDesc) (v : Bytes) : Bytes := v

/-- `Argument.from_bytes` (base class): returns the value unchanged. -/
def ArgDesc.from_bytes (_d : ArgDesc) (v : Bytes) : Bytes := v

/-- A `Command`: wire token plus the `_arguments` name-to-descriptor
mapping (an insertion-ordered dict, embedded as a list). -/
structure Command where
  cmd : Bytes
  arguments : List ArgDesc
deriving DecidableEq

/-- `Command.__getitem__` / the `_arguments` dict lookup. -/
def Command.find? (c : Command) (n : String) : Option ArgDesc :=
  c.arguments.find? (fun d => d.name = n)

/-- `Command.__contains__`. -/
def Command.containsName (c : Command) (n : String) : Bool :=
  (c.find? n).isSome

/-- The `Command.arguments` property: the set of declared names
(embedded as the list of keys). -/
def Command.argNames (c : Command) : List String :=
  c.arguments.map (fun d => d.name)

/-- `Command.add_argument`: rejects duplicate names. -/
def Command.add_argument (c : Command) (d : ArgDesc) : Except Err Command :=
  if c.arguments.any (fun e => e.name = d.name) then .error .duplicateArgument
  else .ok { c with arguments := c.arguments ++ [d] }

/-- The mutable state of one `UnknownCommand` instance: its token and
its `_command_cache`. -/
structure ProxyState where
  cmd : Bytes
  cache : Option Command
deriving DecidableEq

/-- The process-wide mutable state of commands.py: `Command._registry`
and `UnknownCommand._registry` (proxy instances are identified by their
index into `proxies`; weak-reference reclamation is not modelled). -/
structure CmdWorld where
  registry : List (Bytes × Command)
  uregistry : List (Bytes × Nat)
  proxies : List ProxyState
deriving DecidableEq

/-- `Command.lookup`: `none` models the `KeyError` case. -/
def lookupCmd (w : CmdWorld) (t : Bytes) : Option Command :=
  (w.registry.find? (fun p => p.1 = t)).map (fun p => p.2)

/-- `Command.register`: duplicate registration is an error. -/
def registerCmd (w : CmdWorld) (c : Command) : Except Err CmdWorld :=
  if (lookupCmd w c.cmd).isSome then .error .duplicateRegistration
  else .ok { w with registry := w.registry ++ [(c.cmd, c)] }

/-- `UnknownCommand.__new__`: return the memoized instance for the
token, or allocate a new one and record it. -/
def unknownNew (w : CmdWorld) (t : Bytes) : Nat × CmdWorld :=
  match w.uregistry.find? (fun p => p.1 = t) with
  | some p => (p.2, w)
  | none =>
      let i := w.proxies.length
      (i, { w with
              uregistry := w.uregistry ++ [(t, i)],
              proxies := w.proxies ++ [⟨t, none⟩] })

/-- The result of `get_command`: a registered `Command` or an
`UnknownCommand` proxy (index plus its token). -/
inductive CmdHandle where
  | known (c : Command)
  | proxy (i : Nat) (cmd : Bytes)
deriving DecidableEq

/-- The `cmd` attribute, available on both commands and proxies. -/
def CmdHandle.cmdTok : CmdHandle → Bytes
  | .known c => c.cmd
  | .proxy _ t => t

/-- `get_command`: strict lookup, falling back to the proxy. -/
def get_command (w : CmdWorld) (t : Bytes) : CmdHandle × CmdWorld :=
  match lookupCmd w t with
  | some c => (.known c, w)
  | none =>
      let iw := unknownNew w t
      (.proxy iw.1 t, iw.2)

/-- The `UnknownCommand._command` property: consult the cache, else try
`Command.lookup`, caching a success. -/
def proxyResolve (w : CmdWorld) (i : Nat) : Option Command × CmdWorld :=
  match w.proxies.get? i with
  | none => (none, w)
  | some p =>
      match p.cache with
      | some c => (some c, w)
      | none =>
          match lookupCmd w p.cmd with
          | some c => (some c, { w with proxies := w.proxies.set i { p with cache := some c } })
          | none => (none, w)

/-- The `UnknownCommand.arguments` property: delegate when resolvable,
else the empty set. -/
def proxyArguments (w : CmdWorld) (i : Nat) : List String × CmdWorld :=
  let rw := proxyResolve w i
  (match rw.1 with
   | some c => c.argNames
   | none => [], rw.2)

/-- `UnknownCommand.__contains__`: delegate when resolvable, else
`False`. -/
def proxyContains (w : CmdWorld) (i : Nat) (n : String) : Bool × CmdWorld :=
  let rw := proxyResolve w i
  (match rw.1 with
   | some c => c.containsName n
   | none => false, rw.2)

/-- Membership test through a handle (`attr in self._command`). -/
def CmdHandle.containsW (h : CmdHandle) (w : CmdWorld) (n : String) : Bool :=
  match h with
  | .known c => c.containsName n
  | .proxy i _ => (proxyContains w i n).1

/-- Descriptor lookup through a handle (`self._command[attr]`). -/
def CmdHandle.findW (h : CmdHandle) (w : CmdWorld) (n : String) : Option ArgDesc :=
  match h with
  | .known c => c.find? n
  | .proxy i _ =>
      match (proxyResolve w i).1 with
      | some c => c.find? n
      | none => none

/-! ### Arguments (messages.py)

`Arguments` holds the raw value sequence, the owning command and the
named-access cache.  The `ctxt`/`conn` fields threaded to the (identity)
conversion strategies are dropped; the cache-priming writes performed by
`__len__` and `__getattr__` are elided because each cached value equals
the value the code would recompute, so results are unchanged. -/

structure Arguments where
  value : List Val
  command : CmdHandle
  attr_cache : List (String × Option Bytes)
deriving DecidableEq

/-- The countdown loop of `Arguments.__len__`: walk the reversed
sequence, decrementing once per trailing unset entry. -/
def seqLenGo : List Val → Nat → Nat
  | [], n => n
  | x :: rest, n => if x = none then seqLenGo rest (n - 1) else n

/-- `Arguments.__len__`: stored length less the trailing unset run. -/
def seqLen (v : List Val) : Nat := seqLenGo v.reverse v.length

/-- Python list indexing (`l[i]`): a single wrap for negative indices,
`none` for the `IndexError` cases. -/
def pyGet {α : Type} (l : List α) (i : Int) : Option α :=
  let j := if i < 0 then i + l.length else i
  if 0 ≤ j then l.get? j.toNat else none

/-- `Arguments.__getitem__` for an integer index (messages.py lines
220-227): bounds-check against the logical length, wrap negatives, then
read the stored sequence directly. -/
def Arguments.getItemInt (a : Arguments) (i : Int) : Except Err Val :=
  let n : Int := (seqLen a.value : Int)
  if i < -n ∨ n ≤ i then .error .indexOutOfRange
  else
    let j := if i < 0 then i + n else i
    .ok ((a.value.get? j.toNat).getD none)

/-- A Python `slice` object. -/
structure PySlice where
  start : Option Int
  stop : Option Int
  step : Option Int
deriving DecidableEq

/-- The clamping of one endpoint performed by `slice.indices`. -/
def adjIdx (len lower upper x0 : Int) : Int :=
  if x0 < 0 then
    let x := x0 + len
    if x < lower then lower else x
  else if x0 > upper then upper else x0

/-- `slice.indices(length)` (CPython semantics): step defaulting and
zero-step rejection, then per-endpoint defaulting and clamping. -/
def pyIndices (s : PySlice) (length : Nat) : Except Err (Int × Int × Int) :=
  let step := s.step.getD 1
  if step = 0 then .error .zeroStep
  else
    let len : Int := (length : Int)
    let lower : Int := if step < 0 then -1 else 0
    let upper : Int := if step < 0 then len - 1 else len
    let start := match s.start with
      | none => if step < 0 then upper else lower
      | some x => adjIdx len lower upper x
    let stop := match s.stop with
      | none => if step < 0 then lower else upper
      | some x => adjIdx len lower upper x
    .ok (start, stop, step)

/-- `range(start, stop, step)` for a non-zero step, in closed form. -/
def pyRange (start stop step : Int) : List Int :=
  if 0 < step then
    (List.range (((stop - start) + step - 1) / step).toNat).map
      (fun k => start + step * (k : Int))
  else
    (List.range (((start - stop) + (-step) - 1) / (-step)).toNat).map
      (fun k => start + step * (k : Int))

/-- `Arguments.__getitem__` for a slice (messages.py lines 230-232):
`idx.indices(len(self))` then direct stored-sequence reads.  Every
index produced by `pyIndices` lies in `[0, len)`, so the reads are the
plain non-negative Python accesses. -/
def Arguments.getItemSlice (a : Arguments) (s : PySlice) : Except Err (List Val) :=
  match pyIndices s (seqLen a.value) with
  | .error e => .error e
  | .ok ind =>
      .ok ((pyRange ind.1 ind.2.1 ind.2.2).map
        (fun i => (a.value.get? i.toNat).getD none))

/-- `Arguments.__getattr__` (messages.py lines 238-273): declared-name
check, cache consultation, then raw lookup at the descriptor's declared
position (an out-of-range read counts as unset), identity `from_bytes`
conversion, and default substitution for unset results. -/
def Arguments.getattr (w : CmdWorld) (a : Arguments) (attr : String) :
    Except Err (Option Bytes) :=
  if ¬ (a.command.containsW w attr) then .error .unknownAttribute
  else
    match a.attr_cache.find? (fun p => p.1 = attr) with
    | some p => .ok p.2
    | none =>
        match a.command.findW w attr with
        | none => .error .unknownAttribute
        | some desc =>
            let v : Option Bytes :=
              match pyGet a.value desc.idx with
              | none => none
              | some x =>
                  match x with
                  | none => none
                  | some b => some (desc.from_bytes b)
            match v with
            | none => .ok desc.default
            | some b => .ok (some b)

/-! ### `Arguments.from_dict` (messages.py lines 72-166)

The value mapping may be keyed by explicit integer positions or by
declared argument names. -/

inductive ArgKey where
  | pos (i : Int)
  | name (n : String)
deriving DecidableEq

/-- The intermediate state of the resolution algorithm: the `head` and
`tail` position dicts, `highest_idx`, and the `seen` name set. -/
structure ResSt where
  head : List (Int × Val)
  tail : List (Int × Val)
  highest : Int
  seen : List String
deriving DecidableEq

/-- Python dict assignment `m[k] = v` for an integer-keyed dict
embedded as an association list. -/
def dictInsert (m : List (Int × Val)) (k : Int) (v : Val) : List (Int × Val) :=
  if m.any (fun p => p.1 = k) then
    m.map (fun p => if p.1 = k then (k, v) else p)
  else m ++ [(k, v)]

/-- One iteration of the `for arg, val in value.items()` loop: integer
keys map directly; name keys resolve their descriptor (a `KeyError` for
an undeclared name), are recorded in `seen`, converted, and bucketed by
the descriptor's position, tracking `highest_idx`. -/
def resolveEntry (command : Command) (st : ResSt) :
    ArgKey × Bytes → Except Err ResSt
  | (.pos i, v) =>
      if 0 ≤ i then
        .ok { st with head := dictInsert st.head i (some v),
                      highest := if i > st.highest then i else st.highest }
      else
        .ok { st with tail := dictInsert st.tail i (some v) }
  | (.name n, v) =>
      match command.find? n with
      | none => .error .keyError
      | some desc =>
          let st := { st with seen := st.seen ++ [n] }
          let val := desc.to_bytes v
          if 0 ≤ desc.idx then
            .ok { st with head := dictInsert st.head desc.idx (some val),
                          highest := if desc.idx > st.highest then desc.idx
                                     else st.highest }
          else
            .ok { st with tail := dictInsert st.tail desc.idx (some val) }

/-- The defaults pass: every declared descriptor not in `seen` with a
default contributes that default at its position.  (The Python code
iterates the set `command.arguments - seen`, whose order cannot affect
the resulting dicts; declaration order is used here.) -/
def resolveDefaults (command : Command) (st : ResSt) : ResSt :=
  command.arguments.foldl
    (fun st desc =>
      if desc.name ∈ st.seen then st
      else
        match desc.default with
        | none => st
        | some d =>
            let val := desc.to_bytes d
            if 0 ≤ desc.idx then
              { st with head := dictInsert st.head desc.idx (some val),
                        highest := if desc.idx > st.highest then desc.idx
                                   else st.highest }
            else
              { st with tail := dictInsert st.tail desc.idx (some val) })
    st

/-- The tail fold: `total_len = highest_idx + 1 + len(tail)`, then each
tail entry with original position `t` lands at `total_len + t`,
updating `highest_idx` when exceeded. -/
def resolveTail (st : ResSt) : ResSt :=
  let total := st.highest + 1 + (st.tail.length : Int)
  st.tail.foldl
    (fun acc p =>
      let idx := total + p.1
      { acc with head := dictInsert acc.head idx p.2,
                 highest := if idx > acc.highest then idx else acc.highest })
    st

/-- The gap fill: every position in `[0, highest_idx]` missing from
`head` receives the unset placeholder. -/
def fillGaps (st : ResSt) : List (Int × Val) :=
  (List.range (st.highest + 1).toNat).foldl
    (fun h i =>
      if h.any (fun p => p.1 = (i : Int)) then h else h ++ [((i : Int), none)])
    st.head

/-- Insertion into a key-sorted association list. -/
def insertByKey (p : Int × Val) : List (Int × Val) → List (Int × Val)
  | [] => [p]
  | q :: rest => if p.1 ≤ q.1 then p :: q :: rest else q :: insertByKey p rest

/-- `sorted(head.items(), key=lambda x: x[0])`. -/
def sortByKey (l : List (Int × Val)) : List (Int × Val) :=
  l.foldr insertByKey []

/-- `Arguments.from_dict`: run the passes, extract the values in
ascending position order, and prime the attribute cache with the
name-keyed original values. -/
def from_dict (command : Command) (value : List (ArgKey × Bytes)) :
    Except Err Arguments := do
  let st1 ← value.foldlM (resolveEntry command) (⟨[], [], -1, []⟩ : ResSt)
  let st3 := resolveTail (resolveDefaults command st1)
  let arglist := (sortByKey (fillGaps st3)).map (fun p => p.2)
  let cache := value.filterMap
    (fun e => match e.1 with
              | .name n => some (n, some e.2)
              | .pos _ => none)
  .ok ⟨arglist, .known command, cache⟩

/-! ### Message (messages.py)

The connection collaborator supplies entity resolution, the remote peer
identity, the local identity, and the entity wire form
(`Entity.to_bytes`).  The entity type is a parameter. -/

structure Conn (E : Type) where
  get_entity : Bytes → E
  peer : E
  me : E
  toWire : E → Bytes

structure Message (E : Type) where
  origin : E
  command : CmdHandle
  args : Arguments
  msgCache : Option Bytes

/-- `Message.from_bytes` (messages.py lines 304-353): tokenize, reject
an empty first token, consume an optional origin-prefix token, resolve
the command token through `get_command` (threading the command-registry
state), bind the remaining tokens as raw arguments, and prime the
byte-form cache with the original line.  A missing command yields no
message. -/
def from_bytes {E : Type} (w : CmdWorld) (conn : Conn E) (msg : Bytes) :
    Option (Message E) × CmdWorld :=
  match argsplit msg with
  | [] => (none, w)
  | p0 :: rest =>
      if p0 = [] then (none, w)
      else if p0.head? = some ':' then
        match rest with
        | [] => (none, w)
        | cmdTok :: argToks =>
            let hw := get_command w cmdTok
            (some ⟨conn.get_entity (p0.drop 1), hw.1,
                   ⟨argToks.map some, hw.1, []⟩, some msg⟩, hw.2)
      else
        let hw := get_command w p0
        (some ⟨conn.peer, hw.1, ⟨rest.map some, hw.1, []⟩, some msg⟩, hw.2)

/-- `Message.new`: build the arguments from a name-keyed mapping; the
origin is the local identity `conn.me`. -/
def Message.new {E : Type} (conn : Conn E) (command : Command)
    (value : List (String × Bytes)) : Except Err (Message E) :=
  (from_dict command (value.map (fun p => (ArgKey.name p.1, p.2)))).map
    (fun args => ⟨conn.me, .known command, args, none⟩)

/-- The sentinel test of `Message.msg`: `arg[0] == b':' or b' ' in arg`
(meaningful only for non-empty values; `msg` reads `arg[0]` unguarded). -/
def needsSentinel (b : Bytes) : Prop := b.head? = some ':' ∨ ' ' ∈ b

instance : DecidablePred needsSentinel :=
  fun b => inferInstanceAs (Decidable (b.head? = some ':' ∨ ' ' ∈ b))

/-- How `Message.msg` emits one argument value. -/
def renderArg (b : Bytes) : Bytes := if needsSentinel b then ':' :: b else b

/-- The number of sentinel-requiring values in a list. -/
def sentinelCount (l : List Bytes) : Nat :=
  (l.filter (fun b => decide (needsSentinel b))).length

/-- The argument loop of `Message.msg` (messages.py lines 422-435):
skip unset entries, read `arg[0]` (an `IndexError` on an empty value),
emit sentinel-requiring values with the `b':'` prefix, and fail with
`ValueError('multiple trailing arguments')` on a second one. -/
def encodeArgs : List Val → Bool → Except Err (List Bytes)
  | [], _ => .ok []
  | none :: rest, s => encodeArgs rest s
  | some [] :: _, _ => .error .indexError
  | some (c :: cs) :: rest, s =>
      if needsSentinel (c :: cs) then
        if s then .error .multipleTrailing
        else (encodeArgs rest true).map (fun ps => (':' :: c :: cs) :: ps)
      else (encodeArgs rest s).map (fun ps => (c :: cs) :: ps)

/-- `b' '.join(parts)`. -/
def joinSp : List Bytes → Bytes
  | [] => []
  | [t] => t
  | t :: rest => t ++ ' ' :: joinSp rest

/-- The `Message.msg` property (messages.py lines 404-440): return the
cached bytes when present; otherwise assemble origin prefix (omitted
when the origin is the local identity), command token, and the argument
parts.  Iterating `self.args` traverses the logical sequence (indices
`0 ≤ i < len(self)`), i.e. the stored sequence without its trailing
unset run. -/
def Message.msgBytes {E : Type} [DecidableEq E] (conn : Conn E)
    (m : Message E) : Except Err Bytes :=
  match m.msgCache with
  | some s => .ok s
  | none =>
      match encodeArgs (m.args.value.take (seqLen m.args.value)) false with
      | .error e => .error e
      | .ok argParts =>
          .ok (joinSp ((if m.origin = conn.me then []
                        else [':' :: conn.toWire m.origin])
                       ++ m.command.cmdTok :: argParts))

/-! ### Concrete fixtures

The built-in commands registered at module load (commands.py lines
303-310) and a sample connection for concrete evaluations. -/

def pingCmd : Command := ⟨ofStr ("PING"), [⟨"token", 0, none⟩]⟩

def pongCmd : Command := ⟨ofStr ("PONG"), [⟨"token", 0, none⟩]⟩

/-- The registry state right after module load. -/
def initWorld : CmdWorld :=
  ⟨[(ofStr ("PING"), pingCmd), (ofStr ("PONG"), pongCmd)], [], []⟩

def sampleConn : Conn String :=
  ⟨fun b => String.mk b, "peer", "me", String.toList⟩

/-! ### Tokenizer lemmas -/

lemma argsplitGo_token (t rest : Bytes) (acc : List Char) (h : ' ' ∉ t) :
    argsplitGo (t ++ ' ' :: rest) (some acc) =
      (acc.reverse ++ t) :: argsplitGo rest none := by
  induction t generalizing acc with
  | nil => simp [argsplitGo]
  | cons c cs ih =>
      have hc : ¬ (c = ' ') := by
        intro hceq; exact h (hceq ▸ List.mem_cons_self c cs)
      have hcs : ' ' ∉ cs := fun hmem => h (List.mem_cons_of_mem c hmem)
      simp only [List.cons_append, argsplitGo, if_neg hc]
      show argsplitGo (cs ++ ' ' :: rest) (some (c :: acc)) = _
      rw [ih (c :: acc) hcs]
      simp

lemma argsplitGo_last (t : Bytes) (acc : List Char) (h : ' ' ∉ t) :
    argsplitGo t (some acc) = [acc.reverse ++ t] := by
  induction t generalizing acc with
  | nil => simp [argsplitGo]
  | cons c cs ih =>
      have hc : ¬ (c = ' ') := by
        intro hceq; exact h (hceq ▸ List.mem_cons_self c cs)
      have hcs : ' ' ∉ cs := fun hmem => h (List.mem_cons_of_mem c hmem)
      simp only [argsplitGo, if_neg hc]
      rw [ih (c :: acc) hcs]
      simp

lemma argsplitGo_skip (s rest : Bytes) (h : ∀ c ∈ s, c = ' ') :
    argsplitGo (s ++ rest) none = argsplitGo rest none := by
  induction s with
  | nil => rfl
  | cons c cs ih =>
      have hc : c = ' ' := h c (List.mem_cons_self c cs)
      simp only [List.cons_append, argsplitGo, if_pos hc]
      exact ih (fun d hd => h d (List.mem_cons_of_mem c hd))

lemma argsplitGo_spaces (s : Bytes) (h : ∀ c ∈ s, c = ' ') :
    argsplitGo s none = [] := by
  have := argsplitGo_skip s [] h
  simpa using this

/-- A line of spaces (or an empty line) tokenizes to exactly one empty
token. -/
lemma argsplit_spaces (s : Bytes) (h : ∀ c ∈ s, c = ' ') :
    argsplit s = [[]] := by
  cases s with
  | nil => rfl
  | cons c cs =>
      have hc : c = ' ' := h c (List.mem_cons_self c cs)
      show argsplitGo (c :: cs) (some []) = [[]]
      simp only [argsplitGo, if_pos hc, List.reverse_nil]
      rw [argsplitGo_spaces cs (fun d hd => h d (List.mem_cons_of_mem c hd))]

lemma argsplitGo_none_token (t rest : Bytes) (ht : t ≠ [])
    (hsp : ' ' ∉ t) (hc : t.head? ≠ some ':') :
    argsplitGo (t ++ rest) none = argsplitGo (t ++ rest) (some []) := by
  cases t with
  | nil => exact absurd rfl ht
  | cons c cs =>
      have hc1 : ¬ (c = ' ') := by
        intro hceq; exact hsp (hceq ▸ List.mem_cons_self c cs)
      have hc2 : ¬ (c = ':') := by
        intro hceq; exact hc (by simp [hceq])
      simp [argsplitGo, hc1, hc2]

lemma joinSp_cons_ne (t : Bytes) (l : List Bytes) (h : l ≠ []) :
    joinSp (t :: l) = t ++ ' ' :: joinSp l := by
  cases l with
  | nil => exact absurd rfl h
  | cons u us => rfl

/-- Joining space-free, sentinel-free tokens with single spaces and
re-tokenizing recovers them. -/
lemma argsplit_join_ordinary :
    ∀ (mids : List Bytes),
      (∀ t ∈ mids, t ≠ [] ∧ ' ' ∉ t ∧ t.head? ≠ some ':') →
      ∀ first : Bytes, ' ' ∉ first →
      argsplit (joinSp (first :: mids)) = first :: mids := by
  intro mids
  induction mids with
  | nil =>
      intro _ first hf
      show argsplitGo first (some []) = [first]
      simpa using argsplitGo_last first [] hf
  | cons m ms ih =>
      intro h first hf
      have hm := h m (List.mem_cons_self m ms)
      have hrest : ∀ t ∈ ms, t ≠ [] ∧ ' ' ∉ t ∧ t.head? ≠ some ':' :=
        fun t ht => h t (List.mem_cons_of_mem m ht)
      show argsplitGo (joinSp (first :: m :: ms)) (some []) = _
      rw [joinSp_cons_ne first (m :: ms) (by simp)]
      rw [argsplitGo_token first _ [] hf]
      simp only [List.reverse_nil, List.nil_append]
      congr 1
      cases ms with
      | nil =>
          show argsplitGo (joinSp [m]) none = [m]
          have h1 : joinSp [m] = m ++ [] := by simp [joinSp]
          rw [h1]
          rw [argsplitGo_none_token m [] hm.1 hm.2.1 hm.2.2]
          rw [List.append_nil]
          simpa using argsplitGo_last m [] hm.2.1
      | cons u us =>
          rw [joinSp_cons_ne m (u :: us) (by simp)]
          rw [argsplitGo_none_token m (' ' :: joinSp (u :: us)) hm.1 hm.2.1 hm.2.2]
          have := ih hrest m hm.2.1
          rw [joinSp_cons_ne m (u :: us) (by simp)] at this
          exact this

/-- As above, but with a final sentinel-prefixed trailing part, whose
payload is recovered verbatim. -/
lemma argsplit_join_sentinel :
    ∀ (mids : List Bytes),
      (∀ t ∈ mids, t ≠ [] ∧ ' ' ∉ t ∧ t.head? ≠ some ':') →
      ∀ (first v : Bytes), ' ' ∉ first →
      argsplit (joinSp ((first :: mids) ++ [':' :: v])) = (first :: mids) ++ [v] := by
  intro mids
  induction mids with
  | nil =>
      intro _ first v hf
      show argsplitGo (joinSp [first, ':' :: v]) (some []) = [first, v]
      rw [joinSp_cons_ne first [':' :: v] (by simp)]
      rw [argsplitGo_token first _ [] hf]
      simp [argsplitGo]
  | cons m ms ih =>
      intro h first v hf
      have hm := h m (List.mem_cons_self m ms)
      have hrest : ∀ t ∈ ms, t ≠ [] ∧ ' ' ∉ t ∧ t.head? ≠ some ':' :=
        fun t ht => h t (List.mem_cons_of_mem m ht)
      show argsplitGo (joinSp (first :: (m :: ms) ++ [':' :: v])) (some []) = _
      rw [show (first :: (m :: ms)) ++ [':' :: v] = first :: ((m :: ms) ++ [':' :: v]) by simp]
      rw [joinSp_cons_ne first ((m :: ms) ++ [':' :: v]) (by simp)]
      rw [argsplitGo_token first _ [] hf]
      simp only [List.reverse_nil, List.nil_append]
      congr 1
      rw [show (m :: ms) ++ [':' :: v] = m :: (ms ++ [':' :: v]) by simp]
      rw [joinSp_cons_ne m (ms ++ [':' :: v]) (by simp)]
      rw [argsplitGo_none_token m (' ' :: joinSp (ms ++ [':' :: v])) hm.1 hm.2.1 hm.2.2]
      have := ih hrest m v hm.2.1
      rw [show (m :: ms) ++ [':' :: v] = m :: (ms ++ [':' :: v]) by simp] at this
      rw [joinSp_cons_ne m (ms ++ [':' :: v]) (by simp)] at this
      exact this

/-! ### Claims C2, C3: tokenizer behavior -/

/-- C2: tokenizing starts inside the first token at position 0, so a
sentinel character at position 0 begins an ordinary token; after the
first token, a sentinel met while skipping spaces turns the remainder
of the line (verbatim) into the final token and scanning stops.  In
particular `":this is :a test"` tokenizes to `[":this", "is", "a test"]`. -/
theorem claim_C2_tokenizer :
    (∀ (a sp rest : Bytes), a ≠ [] → ' ' ∉ a → (∀ c ∈ sp, c = ' ') →
      argsplit (a ++ ' ' :: (sp ++ ':' :: rest)) = [a, rest])
    ∧ argsplit (ofStr (":this is :a test")) =
        [ofStr (":this"), ofStr ("is"), ofStr ("a test")] := by
  constructor
  · intro a sp rest _ ha hsp
    show argsplitGo (a ++ ' ' :: (sp ++ ':' :: rest)) (some []) = [a, rest]
    rw [argsplitGo_token a _ [] ha]
    rw [argsplitGo_skip sp (':' :: rest) hsp]
    simp [argsplitGo]
  · rfl

theorem claim_C2_tokenizer_witness :
    argsplit (ofStr (":x") ++ ' ' :: ([] ++ ':' :: ofStr ("y z"))) =
      [ofStr (":x"), ofStr ("y z")] :=
  claim_C2_tokenizer.1 (ofStr (":x")) [] (ofStr ("y z"))
    (by decide) (by decide) (by decide)

/-- C3 counterexample: an empty line and a spaces-only line each
tokenize to exactly one (empty) token, not to zero tokens as the claim
states. -/
theorem claim_C3_cex :
    argsplit ([] : Bytes) = [([] : Bytes)] ∧
    argsplit (ofStr ("   ")) = [([] : Bytes)] ∧
    argsplit ([] : Bytes) ≠ [] := by
  refine ⟨rfl, rfl, ?_⟩
  simp [argsplit, argsplitGo]

/-- C3 (amended): tokenizing an empty line, or a line of only spaces,
yields exactly one token, the empty byte string. -/
theorem claim_C3_amended (line : Bytes) (h : ∀ c ∈ line, c = ' ') :
    argsplit line = [[]] :=
  argsplit_spaces line h

theorem claim_C3_amended_witness :
    argsplit (ofStr ("  ")) = [[]] :=
  claim_C3_amended (ofStr ("  ")) (by decide)

/-! ### Claim C4: encode-path resolution -/

/-- A command with head argument `a` at position 0 (no default) and
tail argument `b` at position -1 (no default). -/
def cmdAB : Command := ⟨ofStr ("AB"), [⟨"a", 0, none⟩, ⟨"b", -1, none⟩]⟩

/-- C4: with `cmdAB`, resolving only `{a: X}` yields exactly `[X]`,
resolving the empty mapping yields the empty sequence, and supplying
both `a` and `b` places the tail value in the last slot
(`total_len + (-1)`). -/
theorem claim_C4_resolution :
    (∀ X : Bytes,
      (from_dict cmdAB [(.name "a", X)]).map Arguments.value = .ok [some X])
    ∧ (from_dict cmdAB []).map Arguments.value = .ok []
    ∧ (∀ X Y : Bytes,
      (from_dict cmdAB [(.name "a", X), (.name "b", Y)]).map Arguments.value =
        .ok [some X, some Y]) := by
  refine ⟨fun X => ?_, rfl, fun X Y => ?_⟩ <;> rfl

/-! ### Claims C6, C9: decode of degenerate lines, byte-cache round trip -/

/-- C6: decoding an empty or blank (spaces-only) line, or a line whose
only token is an origin prefix (first character the sentinel), yields
no `Message` and leaves the command state untouched; `from_bytes` is
total, so no error is raised. -/
theorem claim_C6_decode_absent {E : Type} (w : CmdWorld) (conn : Conn E) :
    (∀ line : Bytes, (∀ c ∈ line, c = ' ') →
      from_bytes w conn line = (none, w))
    ∧ (∀ line p0 : Bytes, argsplit line = [p0] → p0.head? = some ':' →
      from_bytes w conn line = (none, w)) := by
  constructor
  · intro line h
    unfold from_bytes
    rw [argsplit_spaces line h]
    simp
  · intro line p0 hsplit hh
    unfold from_bytes
    rw [hsplit]
    cases p0 with
    | nil => simp at hh
    | cons c cs =>
        have hc : c = ':' := by simpa using hh
        subst hc
        simp

theorem claim_C6_decode_absent_witness :
    from_bytes initWorld sampleConn (ofStr ("  ")) = (none, initWorld) ∧
    from_bytes initWorld sampleConn (ofStr (":origin")) = (none, initWorld) :=
  ⟨(claim_C6_decode_absent initWorld sampleConn).1 (ofStr ("  ")) (by decide),
   (claim_C6_decode_absent initWorld sampleConn).2 (ofStr (":origin"))
     (ofStr (":origin")) rfl (by decide)⟩

/-- C9: every `Message` produced by `from_bytes` carries the original
raw line in its byte cache, and serializing a message with a populated
cache returns the cached bytes unchanged — so the serialized form is
byte-for-byte the original line. -/
theorem claim_C9_cache_roundtrip {E : Type} [DecidableEq E]
    (w w2 : CmdWorld) (conn : Conn E) (line : Bytes) (m : Message E)
    (h : from_bytes w conn line = (some m, w2)) :
    m.msgCache = some line ∧ Message.msgBytes conn m = .ok line := by
  have hmc : m.msgCache = some line := by
    unfold from_bytes at h
    split at h
    · simp at h
    · split at h
      · simp at h
      · split at h
        · split at h
          · simp at h
          · rw [Prod.mk.injEq] at h
            obtain rfl : _ = m := Option.some.inj h.1
            rfl
        · rw [Prod.mk.injEq] at h
          obtain rfl : _ = m := Option.some.inj h.1
          rfl
  refine ⟨hmc, ?_⟩
  unfold Message.msgBytes
  rw [hmc]

/-- The message decoded from `b"PING hi"` in the initial registry. -/
def msgPingHi : Message String :=
  ⟨"peer", .known pingCmd,
   ⟨[some (ofStr ("hi"))], .known pingCmd, []⟩, some (ofStr ("PING hi"))⟩

theorem claim_C9_cache_roundtrip_witness :
    msgPingHi.msgCache = some (ofStr ("PING hi")) ∧
    Message.msgBytes sampleConn msgPingHi = .ok (ofStr ("PING hi")) :=
  claim_C9_cache_roundtrip initWorld initWorld sampleConn
    (ofStr ("PING hi")) msgPingHi rfl

/-! ### Claim C7: logical length and positional access -/

lemma seqLenGo_eq (l : List Val) (n : Nat) :
    seqLenGo l n = n - (l.takeWhile (fun x => decide (x = none))).length := by
  induction l generalizing n with
  | nil => simp [seqLenGo]
  | cons x rest ih =>
      by_cases hx : x = none
      · subst hx
        simp only [seqLenGo, if_pos rfl, List.takeWhile_cons, decide_True,
          ite_true, List.length_cons]
        rw [ih]
        omega
      · simp [seqLenGo, hx, List.takeWhile_cons]

lemma seqLen_eq (v : List Val) :
    seqLen v = v.length - (v.reverse.takeWhile (fun x => decide (x = none))).length :=
  seqLenGo_eq v.reverse v.length

lemma seqLen_le (v : List Val) : seqLen v ≤ v.length := by
  rw [seqLen_eq]; omega

/-- Integer access agrees with Python-list indexing restricted to the
logical prefix: in-bounds (possibly negative) indices return the stored
entry, everything else is `IndexError`. -/
lemma getItemInt_pyGet (a : Arguments) (i : Int) :
    a.getItemInt i =
      (match pyGet (a.value.take (seqLen a.value)) i with
       | some x => .ok x
       | none => .error .indexOutOfRange) := by
  have hn : seqLen a.value ≤ a.value.length := seqLen_le _
  have hlen : (a.value.take (seqLen a.value)).length = seqLen a.value := by
    rw [List.length_take]; omega
  unfold Arguments.getItemInt pyGet
  simp only [hlen]
  by_cases h1 : i < -((seqLen a.value : Int)) ∨ ((seqLen a.value : Int)) ≤ i
  · rw [if_pos h1]
    rcases h1 with h1 | h1
    · have hneg : i < 0 := by omega
      rw [if_pos hneg]
      have : ¬ (0 ≤ i + ((seqLen a.value : Int))) := by omega
      rw [if_neg this]
    · have hpos : ¬ (i < 0) := by omega
      rw [if_neg hpos, if_pos (by omega : (0:Int) ≤ i)]
      have : (a.value.take (seqLen a.value)).get? i.toNat = none := by
        rw [List.get?_eq_none]
        rw [hlen]
        omega
      rw [this]
  · rw [if_neg h1]
    push_neg at h1
    obtain ⟨hlo, hhi⟩ := h1
    by_cases h2 : i < 0
    · rw [if_pos h2]
      have hj : (0:Int) ≤ i + ((seqLen a.value : Int)) := by omega
      rw [if_pos hj]
      have hjn : (i + ((seqLen a.value : Int))).toNat < seqLen a.value := by omega
      have hget : (a.value.take (seqLen a.value)).get?
          (i + ((seqLen a.value : Int))).toNat =
          a.value.get? (i + ((seqLen a.value : Int))).toNat :=
        List.get?_take hjn
      rw [hget]
      cases hx : a.value.get? (i + ((seqLen a.value : Int))).toNat with
      | none =>
          rw [List.get?_eq_none] at hx
          omega
      | some x => simp
    · rw [if_neg h2, if_pos (by omega : (0:Int) ≤ i)]
      have hjn : i.toNat < seqLen a.value := by omega
      have hget : (a.value.take (seqLen a.value)).get? i.toNat =
          a.value.get? i.toNat := List.get?_take hjn
      rw [hget]
      cases hx : a.value.get? i.toNat with
      | none =>
          rw [List.get?_eq_none] at hx
          omega
      | some x => simp

/-- Slice access never fails for a non-zero step: `slice.indices` clamps
both endpoints to the logical bounds instead of raising. -/
lemma getItemSlice_total (a : Arguments) (s : PySlice) (hs : s.step ≠ some 0) :
    ∃ l, a.getItemSlice s = .ok l := by
  have hstep : ¬ (s.step.getD 1 = 0) := by
    cases hst : s.step with
    | none => simp
    | some k =>
        simp only [Option.getD_some]
        intro hk
        exact hs (by rw [hst, hk])
  unfold Arguments.getItemSlice pyIndices
  simp only [hstep, if_false]
  exact ⟨_, rfl⟩

/-- C7 counterexample: with logical length 3, the range access `[1:7]`
is out of bounds on the claim's reading but returns a clamped result
instead of raising `IndexOutOfRange`. -/
theorem claim_C7_cex :
    seqLen ([some (ofStr ("a")), some (ofStr ("b")), some (ofStr ("c"))] : List Val) = 3 ∧
    Arguments.getItemSlice
        ⟨[some (ofStr ("a")), some (ofStr ("b")), some (ofStr ("c"))],
         .known pingCmd, []⟩
        ⟨some 1, some 7, none⟩ =
      .ok [some (ofStr ("b")), some (ofStr ("c"))] :=
  ⟨rfl, rfl⟩

/-- C7 (amended): the logical length is the stored length minus the
trailing unset run; integer access is bounds-checked against it with
negative indices wrapping from the end, raising `IndexOutOfRange` when
out of bounds; range (slice) access clamps to the logical length and
never raises (for any non-zero step). -/
theorem claim_C7_logical_access (v : List Val) (i : Int) (s : PySlice)
    (ch : CmdHandle) (hs : s.step ≠ some 0) :
    seqLen v = v.length - (v.reverse.takeWhile (fun x => decide (x = none))).length
    ∧ (Arguments.mk v ch []).getItemInt i =
        (match pyGet (v.take (seqLen v)) i with
         | some x => .ok x
         | none => .error .indexOutOfRange)
    ∧ ∃ l, (Arguments.mk v ch []).getItemSlice s = .ok l :=
  ⟨seqLen_eq v, getItemInt_pyGet ⟨v, ch, []⟩ i,
   getItemSlice_total ⟨v, ch, []⟩ s hs⟩

theorem claim_C7_logical_access_witness :
    seqLen ([some (ofStr ("a")), none] : List Val) =
      ([some (ofStr ("a")), none] : List Val).length -
        (([some (ofStr ("a")), none] : List Val).reverse.takeWhile
          (fun x => decide (x = none))).length
    ∧ (Arguments.mk [some (ofStr ("a")), none] (.known pingCmd) []).getItemInt (-1) =
        (match pyGet (([some (ofStr ("a")), none] : List Val).take
            (seqLen ([some (ofStr ("a")), none] : List Val))) (-1) with
         | some x => .ok x
         | none => .error .indexOutOfRange)
    ∧ ∃ l, (Arguments.mk [some (ofStr ("a")), none] (.known pingCmd) []).getItemSlice
        ⟨some 1, some 7, none⟩ = .ok l :=
  claim_C7_logical_access [some (ofStr ("a")), none] (-1)
    ⟨some 1, some 7, none⟩ (.known pingCmd) (by decide)

/-! ### Claims C5, C10: serialization of the argument loop -/

lemma encodeArgs_ok (l : List Val) (hne : ∀ b ∈ l.filterMap id, b ≠ [])
    (s : Bool) (hcount : sentinelCount (l.filterMap id) ≤ (if s then 0 else 1)) :
    encodeArgs l s = .ok ((l.filterMap id).map renderArg) := by
  induction l generalizing s with
  | nil => simp [encodeArgs]
  | cons x rest ih =>
      cases x with
      | none =>
          simp only [List.filterMap_cons_none, id] at hne hcount ⊢
          simpa [encodeArgs] using ih hne s hcount
      | some b =>
          have hfm : (some b :: rest).filterMap id = b :: rest.filterMap id := by
            simp [List.filterMap_cons]
          rw [hfm] at hne hcount
          have hb : b ≠ [] := hne b (List.mem_cons_self b _)
          have hnerest : ∀ c ∈ rest.filterMap id, c ≠ [] :=
            fun c hc => hne c (List.mem_cons_of_mem b hc)
          cases b with
          | nil => exact absurd rfl hb
          | cons c cs =>
              rw [hfm]
              by_cases hsent : needsSentinel (c :: cs)
              · have hcnt : sentinelCount ((c :: cs) :: rest.filterMap id) =
                    1 + sentinelCount (rest.filterMap id) := by
                  simp [sentinelCount, List.filter_cons, hsent]
                  omega
                rw [hcnt] at hcount
                cases s with
                | true => simp at hcount
                | false =>
                    simp only [encodeArgs, if_pos hsent, if_neg Bool.false_ne_true]
                    rw [ih hnerest true (by simp at hcount ⊢; omega)]
                    simp [Except.map, renderArg, hsent]
              · have hcnt : sentinelCount ((c :: cs) :: rest.filterMap id) =
                    sentinelCount (rest.filterMap id) := by
                  simp [sentinelCount, List.filter_cons, hsent]
                rw [hcnt] at hcount
                simp only [encodeArgs, if_neg hsent]
                rw [ih hnerest s hcount]
                simp [Except.map, renderArg, hsent]

lemma encodeArgs_error (l : List Val) (hne : ∀ b ∈ l.filterMap id, b ≠ [])
    (s : Bool) (hcount : (if s then 1 else 2) ≤ sentinelCount (l.filterMap id)) :
    encodeArgs l s = .error .multipleTrailing := by
  induction l generalizing s with
  | nil =>
      simp only [List.filterMap_nil, sentinelCount, List.filter_nil,
        List.length_nil] at hcount
      cases s <;> simp at hcount
  | cons x rest ih =>
      cases x with
      | none =>
          simp only [List.filterMap_cons_none, id] at hne hcount ⊢
          simpa [encodeArgs] using ih hne s hcount
      | some b =>
          have hfm : (some b :: rest).filterMap id = b :: rest.filterMap id := by
            simp [List.filterMap_cons]
          rw [hfm] at hne hcount
          have hb : b ≠ [] := hne b (List.mem_cons_self b _)
          have hnerest : ∀ c ∈ rest.filterMap id, c ≠ [] :=
            fun c hc => hne c (List.mem_cons_of_mem b hc)
          cases b with
          | nil => exact absurd rfl hb
          | cons c cs =>
              by_cases hsent : needsSentinel (c :: cs)
              · have hcnt : sentinelCount ((c :: cs) :: rest.filterMap id) =
                    1 + sentinelCount (rest.filterMap id) := by
                  simp [sentinelCount, List.filter_cons, hsent]
                  omega
                rw [hcnt] at hcount
                cases s with
                | true => simp [encodeArgs, hsent]
                | false =>
                    simp only [encodeArgs, if_pos hsent, if_neg Bool.false_ne_true]
                    rw [ih hnerest true (by simp at hcount ⊢; omega)]
                    rfl
              · have hcnt : sentinelCount ((c :: cs) :: rest.filterMap id) =
                    sentinelCount (rest.filterMap id) := by
                  simp [sentinelCount, List.filter_cons, hsent]
                rw [hcnt] at hcount
                simp only [encodeArgs, if_neg hsent]
                rw [ih hnerest s hcount]
                rfl

lemma encodeArgs_ok_nonempty (l : List Val) (s : Bool) (out : List Bytes)
    (h : encodeArgs l s = .ok out) : ∀ b ∈ l.filterMap id, b ≠ [] := by
  induction l generalizing s out with
  | nil => simp
  | cons x rest ih =>
      cases x with
      | none =>
          simp only [List.filterMap_cons_none, id]
          exact ih s out (by simpa [encodeArgs] using h)
      | some b =>
          have hfm : (some b :: rest).filterMap id = b :: rest.filterMap id := by
            simp [List.filterMap_cons]
          rw [hfm]
          cases b with
          | nil => simp [encodeArgs] at h
          | cons c cs =>
              intro b2 hb2
              rcases List.mem_cons.mp hb2 with rfl | hb2
              · simp
              · by_cases hsent : needsSentinel (c :: cs)
                · rw [show encodeArgs (some (c :: cs) :: rest) s =
                      (if needsSentinel (c :: cs) then
                        if s then .error .multipleTrailing
                        else (encodeArgs rest true).map
                          (fun ps => (':' :: c :: cs) :: ps)
                      else (encodeArgs rest s).map
                          (fun ps => (c :: cs) :: ps)) from rfl] at h
                  rw [if_pos hsent] at h
                  cases s with
                  | true => simp at h
                  | false =>
                      cases henc : encodeArgs rest true with
                      | error e => rw [henc] at h; simp [Except.map] at h
                      | ok o2 => exact ih true o2 henc b2 hb2
                · rw [show encodeArgs (some (c :: cs) :: rest) s =
                      (if needsSentinel (c :: cs) then
                        if s then .error .multipleTrailing
                        else (encodeArgs rest true).map
                          (fun ps => (':' :: c :: cs) :: ps)
                      else (encodeArgs rest s).map
                          (fun ps => (c :: cs) :: ps)) from rfl] at h
                  rw [if_neg hsent] at h
                  cases henc : encodeArgs rest s with
                  | error e => rw [henc] at h; simp [Except.map] at h
                  | ok o2 => exact ih s o2 henc b2 hb2

lemma encodeArgs_indexError (l1 l2 : List Val) (s : Bool)
    (hne : ∀ b ∈ l1.filterMap id, b ≠ [])
    (hcount : sentinelCount (l1.filterMap id) ≤ (if s then 0 else 1)) :
    encodeArgs (l1 ++ some [] :: l2) s = .error .indexError := by
  induction l1 generalizing s with
  | nil => rfl
  | cons x rest ih =>
      cases x with
      | none =>
          simp only [List.filterMap_cons_none, id] at hne hcount
          simpa [encodeArgs] using ih s hne hcount
      | some b =>
          have hfm : (some b :: rest).filterMap id = b :: rest.filterMap id := by
            simp [List.filterMap_cons]
          rw [hfm] at hne hcount
          have hb : b ≠ [] := hne b (List.mem_cons_self b _)
          have hnerest : ∀ c ∈ rest.filterMap id, c ≠ [] :=
            fun c hc => hne c (List.mem_cons_of_mem b hc)
          cases b with
          | nil => exact absurd rfl hb
          | cons c cs =>
              by_cases hsent : needsSentinel (c :: cs)
              · have hcnt : sentinelCount ((c :: cs) :: rest.filterMap id) =
                    1 + sentinelCount (rest.filterMap id) := by
                  simp [sentinelCount, List.filter_cons, hsent]
                  omega
                rw [hcnt] at hcount
                cases s with
                | true => simp at hcount
                | false =>
                    simp only [List.cons_append, List.append_eq, encodeArgs,
                      if_pos hsent, if_neg Bool.false_ne_true]
                    rw [ih true hnerest (by simp at hcount ⊢; omega)]
                    rfl
              · have hcnt : sentinelCount ((c :: cs) :: rest.filterMap id) =
                    sentinelCount (rest.filterMap id) := by
                  simp [sentinelCount, List.filter_cons, hsent]
                rw [hcnt] at hcount
                simp only [List.cons_append, List.append_eq, encodeArgs,
                  if_neg hsent]
                rw [ih s hnerest hcount]
                rfl

/-- A message whose first logical value is empty and which carries two
space-containing values. -/
def msgC5cex : Message String :=
  ⟨"o", .known pingCmd,
   ⟨[some [], some (ofStr ("a b")), some (ofStr ("c d"))], .known pingCmd, []⟩,
   none⟩

/-- C5 counterexample: this message has two argument values each
containing a space, yet serialization fails with `IndexError` (from the
unguarded `arg[0]` on the empty value), not with
`MultipleTrailingArguments` as the claim asserts. -/
theorem claim_C5_cex :
    msgC5cex.args.value =
      [some [], some (ofStr ("a b")), some (ofStr ("c d"))] ∧
    (' ' ∈ ofStr ("a b") ∧ ' ' ∈ ofStr ("c d")) ∧
    Message.msgBytes sampleConn msgC5cex = .error .indexError := by
  refine ⟨rfl, ⟨by decide, by decide⟩, rfl⟩

/-- C5 (amended): provided every value in the logical sequence is
non-empty, a sentinel-requiring value (leading sentinel character or
embedded space) is emitted with the sentinel prefix, and serialization
fails with `MultipleTrailingArguments` as soon as a second
sentinel-requiring value occurs — in particular whenever two values
each contain a space. -/
theorem claim_C5_single_trailing {E : Type} [DecidableEq E]
    (conn : Conn E) (m : Message E) (h0 : m.msgCache = none)
    (hne : ∀ b ∈ (m.args.value.take (seqLen m.args.value)).filterMap id, b ≠ []) :
    (2 ≤ sentinelCount ((m.args.value.take (seqLen m.args.value)).filterMap id) →
      Message.msgBytes conn m = .error .multipleTrailing)
    ∧ (sentinelCount ((m.args.value.take (seqLen m.args.value)).filterMap id) ≤ 1 →
      Message.msgBytes conn m =
        .ok (joinSp ((if m.origin = conn.me then []
                      else [':' :: conn.toWire m.origin])
                     ++ m.command.cmdTok ::
                       ((m.args.value.take (seqLen m.args.value)).filterMap id).map
                         renderArg))) := by
  constructor
  · intro h2
    unfold Message.msgBytes
    rw [h0]
    rw [encodeArgs_error _ hne false (by simpa using h2)]
  · intro h1
    unfold Message.msgBytes
    rw [h0]
    rw [encodeArgs_ok _ hne false (by simpa using h1)]

/-- A well-behaved message: one space-containing value, in last place. -/
def msgC5wit : Message String :=
  ⟨"o", .known pingCmd,
   ⟨[some (ofStr ("x")), some (ofStr ("a b"))], .known pingCmd, []⟩, none⟩

theorem claim_C5_single_trailing_witness :
    (2 ≤ sentinelCount ((msgC5wit.args.value.take
        (seqLen msgC5wit.args.value)).filterMap id) →
      Message.msgBytes sampleConn msgC5wit = .error .multipleTrailing)
    ∧ (sentinelCount ((msgC5wit.args.value.take
        (seqLen msgC5wit.args.value)).filterMap id) ≤ 1 →
      Message.msgBytes sampleConn msgC5wit =
        .ok (joinSp ((if msgC5wit.origin = sampleConn.me then []
                      else [':' :: sampleConn.toWire msgC5wit.origin])
                     ++ msgC5wit.command.cmdTok ::
                       ((msgC5wit.args.value.take
                         (seqLen msgC5wit.args.value)).filterMap id).map
                         renderArg))) :=
  claim_C5_single_trailing sampleConn msgC5wit rfl (by decide)

/-- A message with two space-containing values ahead of an empty one. -/
def msgC10cex : Message String :=
  ⟨"o", .known pingCmd,
   ⟨[some (ofStr ("a b")), some (ofStr ("c d")), some []], .known pingCmd, []⟩,
   none⟩

/-- C10 counterexample: the logical sequence contains an empty value,
yet serialization fails with `MultipleTrailingArguments` (one of the
specified error kinds), not with the `IndexError` the claim promises,
because the second space-containing value is scanned first. -/
theorem claim_C10_cex :
    some ([] : Bytes) ∈ msgC10cex.args.value ∧
    seqLen msgC10cex.args.value = 3 ∧
    Message.msgBytes sampleConn msgC10cex = .error .multipleTrailing := by
  refine ⟨by decide, rfl, rfl⟩

/-- C10 (amended): serialization is not total on empty values — encode
succeeds only when every value of the logical sequence is non-empty,
and it raises the unhandled `IndexError` whenever the scan reaches an
empty value (i.e. when at most one sentinel-requiring value precedes
it); with two sentinel-requiring values before the empty one it fails
with `MultipleTrailingArguments` instead. -/
theorem claim_C10_empty_partiality {E : Type} [DecidableEq E]
    (conn : Conn E) (m : Message E) (h0 : m.msgCache = none) :
    (∀ out, Message.msgBytes conn m = .ok out →
      ∀ b ∈ (m.args.value.take (seqLen m.args.value)).filterMap id, b ≠ [])
    ∧ (∀ l1 l2, m.args.value.take (seqLen m.args.value) = l1 ++ some [] :: l2 →
        (∀ b ∈ l1.filterMap id, b ≠ []) →
        sentinelCount (l1.filterMap id) ≤ 1 →
        Message.msgBytes conn m = .error .indexError) := by
  constructor
  · intro out hout
    unfold Message.msgBytes at hout
    rw [h0] at hout
    cases henc : encodeArgs (m.args.value.take (seqLen m.args.value)) false with
    | error e => rw [henc] at hout; cases hout
    | ok parts => exact encodeArgs_ok_nonempty _ false parts henc
  · intro l1 l2 heq h1 h2
    unfold Message.msgBytes
    rw [h0, heq]
    rw [encodeArgs_indexError l1 l2 false h1 (by simpa using h2)]

/-- A message whose second logical value is empty. -/
def msgC10wit : Message String :=
  ⟨"o", .known pingCmd,
   ⟨[some (ofStr ("x")), some []], .known pingCmd, []⟩, none⟩

theorem claim_C10_empty_partiality_witness :
    (∀ out, Message.msgBytes sampleConn msgC10wit = .ok out →
      ∀ b ∈ (msgC10wit.args.value.take
        (seqLen msgC10wit.args.value)).filterMap id, b ≠ [])
    ∧ (∀ l1 l2, msgC10wit.args.value.take (seqLen msgC10wit.args.value) =
          l1 ++ some [] :: l2 →
        (∀ b ∈ l1.filterMap id, b ≠ []) →
        sentinelCount (l1.filterMap id) ≤ 1 →
        Message.msgBytes sampleConn msgC10wit = .error .indexError) :=
  claim_C10_empty_partiality sampleConn msgC10wit rfl

/-! ### Claim C8: unknown-command proxies -/

lemma lookupCmd_find?_none (w : CmdWorld) (t : Bytes)
    (h : lookupCmd w t = none) : w.registry.find? (fun p => p.1 = t) = none := by
  unfold lookupCmd at h
  exact Option.map_eq_none'.mp h

lemma lookupCmd_append_self (w : CmdWorld) (t : Bytes) (C : Command)
    (h1 : lookupCmd w t = none) :
    lookupCmd { w with registry := w.registry ++ [(t, C)] } t = some C := by
  have hf := lookupCmd_find?_none w t h1
  unfold lookupCmd
  simp only [List.find?_append]
  rw [hf]
  simp [List.find?]

lemma proxyArguments_fst (w : CmdWorld) (i : Nat) :
    (proxyArguments w i).1 =
      (match (proxyResolve w i).1 with
       | some c => c.argNames
       | none => []) := rfl

lemma proxyContains_fst (w : CmdWorld) (i : Nat) (n : String) :
    (proxyContains w i n).1 =
      (match (proxyResolve w i).1 with
       | some c => c.containsName n
       | none => false) := rfl

/-- Resolving a proxy whose cache is empty consults the registry. -/
lemma proxyResolve_unres (reg : List (Bytes × Command))
    (ureg : List (Bytes × Nat)) (prox : List ProxyState) (i : Nat) (t : Bytes)
    (hget : prox.get? i = some ⟨t, none⟩) :
    proxyResolve ⟨reg, ureg, prox⟩ i =
      (match lookupCmd ⟨reg, ureg, prox⟩ t with
       | some c => (some c, ⟨reg, ureg, prox.set i ⟨t, some c⟩⟩)
       | none => (none, ⟨reg, ureg, prox⟩)) := by
  unfold proxyResolve
  rw [show (⟨reg, ureg, prox⟩ : CmdWorld).proxies.get? i = some (⟨t, none⟩ : ProxyState)
      from hget]

lemma proxyResolve_unres_none (reg : List (Bytes × Command))
    (ureg : List (Bytes × Nat)) (prox : List ProxyState) (i : Nat) (t : Bytes)
    (hget : prox.get? i = some ⟨t, none⟩)
    (hlook : lookupCmd ⟨reg, ureg, prox⟩ t = none) :
    proxyResolve ⟨reg, ureg, prox⟩ i = (none, ⟨reg, ureg, prox⟩) := by
  rw [proxyResolve_unres reg ureg prox i t hget, hlook]

lemma proxyResolve_unres_some (reg : List (Bytes × Command))
    (ureg : List (Bytes × Nat)) (prox : List ProxyState) (i : Nat) (t : Bytes)
    (C : Command) (hget : prox.get? i = some ⟨t, none⟩)
    (hlook : lookupCmd ⟨reg, ureg, prox⟩ t = some C) :
    (proxyResolve ⟨reg, ureg, prox⟩ i).1 = some C := by
  rw [proxyResolve_unres reg ureg prox i t hget, hlook]

/-- C8: for an unregistered token, `get_command` returns a proxy whose
argument set is empty and whose membership test is false for every
name; a repeated call returns the same proxy instance and leaves the
state unchanged; and after a `Command` with that exact token is
registered, the very same proxy's argument set equals the registered
command's declared names (delegation without re-creation). -/
theorem claim_C8_proxy_memoized (w : CmdWorld) (t : Bytes)
    (h1 : lookupCmd w t = none)
    (h2 : ∀ p ∈ w.uregistry, p.1 = t →
      ∃ ps, w.proxies.get? p.2 = some ps ∧ ps.cmd = t ∧ ps.cache = none) :
    ∃ i w1, get_command w t = (.proxy i t, w1) ∧
      (proxyArguments w1 i).1 = [] ∧
      (∀ n, (proxyContains w1 i n).1 = false) ∧
      get_command w1 t = (.proxy i t, w1) ∧
      (∀ C w2, C.cmd = t → registerCmd w1 C = .ok w2 →
        (proxyArguments w2 i).1 = C.argNames) := by
  obtain ⟨reg, ureg, prox⟩ := w
  cases hfind : ureg.find? (fun p => p.1 = t) with
  | some p =>
      have hmem : p ∈ ureg := List.mem_of_find?_eq_some hfind
      have hpt : p.1 = t := by simpa using List.find?_some hfind
      obtain ⟨ps, hps, hcmd, hcache⟩ := h2 p hmem hpt
      have hps2 : prox.get? p.2 = some (⟨t, none⟩ : ProxyState) := by
        rw [hps]
        cases ps
        simp_all
      have hres := proxyResolve_unres_none reg ureg prox p.2 t hps2 h1
      refine ⟨p.2, ⟨reg, ureg, prox⟩, ?_, ?_, ?_, ?_, ?_⟩
      · unfold get_command unknownNew
        rw [h1]
        rw [show (⟨reg, ureg, prox⟩ : CmdWorld).uregistry.find? (fun p => p.1 = t)
            = some p from hfind]
      · rw [proxyArguments_fst, hres]
      · intro n
        rw [proxyContains_fst, hres]
      · unfold get_command unknownNew
        rw [h1]
        rw [show (⟨reg, ureg, prox⟩ : CmdWorld).uregistry.find? (fun p => p.1 = t)
            = some p from hfind]
      · intro C w2 hC hreg
        unfold registerCmd at hreg
        rw [hC, h1] at hreg
        simp only [Option.isSome_none, Bool.false_eq_true, if_false] at hreg
        obtain rfl := (Except.ok.injEq _ _).mp hreg
        have hlook2 : lookupCmd ⟨reg ++ [(t, C)], ureg, prox⟩ t = some C :=
          lookupCmd_append_self ⟨reg, ureg, prox⟩ t C h1
        have hsome := proxyResolve_unres_some (reg ++ [(t, C)]) ureg prox p.2 t C
          hps2 hlook2
        rw [proxyArguments_fst]
        rw [hsome]
  | none =>
      have hlook1 : lookupCmd ⟨reg, ureg ++ [(t, prox.length)],
          prox ++ [⟨t, none⟩]⟩ t = none := h1
      have hget1 : (prox ++ [(⟨t, none⟩ : ProxyState)]).get? prox.length =
          some (⟨t, none⟩ : ProxyState) := List.get?_concat_length ..
      have hres := proxyResolve_unres_none reg (ureg ++ [(t, prox.length)])
        (prox ++ [⟨t, none⟩]) prox.length t hget1 hlook1
      refine ⟨prox.length, ⟨reg, ureg ++ [(t, prox.length)], prox ++ [⟨t, none⟩]⟩,
        ?_, ?_, ?_, ?_, ?_⟩
      · unfold get_command unknownNew
        rw [h1]
        rw [show (⟨reg, ureg, prox⟩ : CmdWorld).uregistry.find? (fun p => p.1 = t)
            = none from hfind]
      · rw [proxyArguments_fst, hres]
      · intro n
        rw [proxyContains_fst, hres]
      · unfold get_command unknownNew
        rw [hlook1]
        have hfind1 : (ureg ++ [(t, prox.length)]).find? (fun p => p.1 = t) =
            some (t, prox.length) := by
          rw [List.find?_append, hfind]
          simp [List.find?]
        rw [show (⟨reg, ureg ++ [(t, prox.length)], prox ++ [⟨t, none⟩]⟩ :
              CmdWorld).uregistry.find? (fun p => p.1 = t)
            = some (t, prox.length) from hfind1]
      · intro C w2 hC hreg
        unfold registerCmd at hreg
        rw [hC, hlook1] at hreg
        simp only [Option.isSome_none, Bool.false_eq_true, if_false] at hreg
        obtain rfl := (Except.ok.injEq _ _).mp hreg
        have hlook2 : lookupCmd ⟨reg ++ [(t, C)], ureg ++ [(t, prox.length)],
            prox ++ [⟨t, none⟩]⟩ t = some C :=
          lookupCmd_append_self ⟨reg, ureg ++ [(t, prox.length)],
            prox ++ [⟨t, none⟩]⟩ t C hlook1
        have hsome := proxyResolve_unres_some (reg ++ [(t, C)])
          (ureg ++ [(t, prox.length)]) (prox ++ [⟨t, none⟩]) prox.length t C
          hget1 hlook2
        rw [proxyArguments_fst]
        rw [hsome]

def unregTok : Bytes := ofStr ("FOO")

theorem claim_C8_proxy_memoized_witness :
    ∃ i w1, get_command initWorld unregTok = (.proxy i unregTok, w1) ∧
      (proxyArguments w1 i).1 = [] ∧
      (∀ n, (proxyContains w1 i n).1 = false) ∧
      get_command w1 unregTok = (.proxy i unregTok, w1) ∧
      (∀ C w2, C.cmd = unregTok → registerCmd w1 C = .ok w2 →
        (proxyArguments w2 i).1 = C.argNames) :=
  claim_C8_proxy_memoized initWorld unregTok rfl (by simp [initWorld])

/-! ### Claim C1: encode/decode round trip -/

lemma notNeedsSentinel_space {b : Bytes} (h : ¬ needsSentinel b) : ' ' ∉ b :=
  fun hm => h (Or.inr hm)

lemma notNeedsSentinel_head {b : Bytes} (h : ¬ needsSentinel b) :
    b.head? ≠ some ':' := fun hh => h (Or.inl hh)

lemma map_renderArg_id (L : List Bytes) (h : ∀ b ∈ L, ¬ needsSentinel b) :
    L.map renderArg = L := by
  induction L with
  | nil => rfl
  | cons b rest ih =>
      have hb := h b (List.mem_cons_self b rest)
      rw [List.map_cons, ih (fun c hc => h c (List.mem_cons_of_mem b hc))]
      rw [renderArg, if_neg hb]

lemma sentinelCount_zero (L : List Bytes) (h : ∀ b ∈ L, ¬ needsSentinel b) :
    sentinelCount L = 0 := by
  induction L with
  | nil => rfl
  | cons b rest ih =>
      have hb := h b (List.mem_cons_self b rest)
      simp only [sentinelCount, List.filter_cons, hb, decide_False,
        Bool.false_eq_true, if_false]
      exact ih (fun c hc => h c (List.mem_cons_of_mem b hc))

lemma sentinelCount_concat (L : List Bytes) (b : Bytes) :
    sentinelCount (L ++ [b]) =
      sentinelCount L + (if needsSentinel b then 1 else 0) := by
  simp only [sentinelCount, List.filter_append]
  by_cases hb : needsSentinel b <;> simp [List.filter_cons, hb]

lemma sentinelCount_le_one (L : List Bytes)
    (h : ∀ b ∈ L.dropLast, ¬ needsSentinel b) : sentinelCount L ≤ 1 := by
  rcases List.eq_nil_or_concat L with rfl | ⟨M, b, rfl⟩
  · simp [sentinelCount]
  · rw [List.concat_eq_append] at h ⊢
    rw [List.dropLast_concat] at h
    rw [sentinelCount_concat, sentinelCount_zero M h]
    split <;> omega

lemma all_some_map (l : List Val) (h : ∀ v ∈ l, v ≠ none) :
    (l.filterMap id).map some = l := by
  induction l with
  | nil => rfl
  | cons x rest ih =>
      cases x with
      | none => exact absurd rfl (h none (List.mem_cons_self none rest))
      | some b =>
          have : (some b :: rest).filterMap id = b :: rest.filterMap id := by
            simp [List.filterMap_cons]
          rw [this, List.map_cons,
            ih (fun v hv => h v (List.mem_cons_of_mem (some b) hv))]

lemma seqLen_all_some (l : List Val) (h : ∀ v ∈ l, v ≠ none) :
    seqLen l = l.length := by
  cases hrev : l.reverse with
  | nil =>
      have : l = [] := by simpa using congrArg List.reverse hrev
      subst this
      rfl
  | cons x xs =>
      have hx : x ∈ l := by
        rw [← List.mem_reverse, hrev]
        exact List.mem_cons_self x xs
      rw [seqLen_eq, hrev, List.takeWhile_cons]
      simp [h x hx]

/-- Rendering non-empty token values (sentinel-requiring only in last
position) and re-tokenizing the joined line recovers the values. -/
lemma argsplit_render (tok : Bytes) (bs : List Bytes)
    (h2 : ' ' ∉ tok)
    (hne : ∀ b ∈ bs, b ≠ [])
    (hsent : ∀ b ∈ bs.dropLast, ¬ needsSentinel b) :
    argsplit (joinSp (tok :: bs.map renderArg)) = tok :: bs := by
  rcases List.eq_nil_or_concat bs with rfl | ⟨L, b, rfl⟩
  · simpa using argsplit_join_ordinary [] (by simp) tok h2
  · rw [List.concat_eq_append] at hne hsent ⊢
    rw [List.dropLast_concat] at hsent
    have hLcond : ∀ t ∈ L, t ≠ [] ∧ ' ' ∉ t ∧ t.head? ≠ some ':' := by
      intro t ht
      have hn := hsent t ht
      exact ⟨hne t (List.mem_append_left _ ht),
        notNeedsSentinel_space hn, notNeedsSentinel_head hn⟩
    have hbne : b ≠ [] := hne b (List.mem_append_right _ (List.mem_singleton_self b))
    rw [List.map_append, map_renderArg_id L hsent]
    by_cases hb : needsSentinel b
    · rw [show [b].map renderArg = [':' :: b] by simp [renderArg, hb]]
      rw [show tok :: (L ++ [':' :: b]) = (tok :: L) ++ [':' :: b] by simp]
      rw [argsplit_join_sentinel L hLcond tok b h2]
      simp
    · rw [show [b].map renderArg = [b] by simp [renderArg, hb]]
      rw [show tok :: (L ++ [b]) = tok :: (L ++ [b]) from rfl]
      have hcond : ∀ t ∈ L ++ [b], t ≠ [] ∧ ' ' ∉ t ∧ t.head? ≠ some ':' := by
        intro t ht
        rcases List.mem_append.mp ht with ht | ht
        · exact hLcond t ht
        · rcases List.mem_singleton.mp ht with rfl
          exact ⟨hbne, notNeedsSentinel_space hb, notNeedsSentinel_head hb⟩
      exact argsplit_join_ordinary (L ++ [b]) hcond tok h2

/-- C1 counterexample input: `{token: b''}` on `PING`.  No value starts
with the sentinel character or contains a space, so the claim asserts a
successful round trip, but the empty value makes serialization raise
`IndexError` and no wire line exists. -/
def mC1cex : Message String :=
  ⟨"me", .known pingCmd,
   ⟨[some []], .known pingCmd, [("token", some [])]⟩, none⟩

theorem claim_C1_cex :
    Message.new sampleConn pingCmd [("token", ([] : Bytes))] = .ok mC1cex ∧
    Message.msgBytes sampleConn mC1cex = .error .indexError :=
  ⟨rfl, rfl⟩

/-- C1 (amended): for a registered command with a well-formed token and
identity (raw) argument conversions, if the resolved sequence contains
no unset and no empty values, only its last entry (if any) requires the
sentinel, and every supplied name's value sits at its descriptor's
position, then serializing and re-decoding the message yields, for
every supplied name, a named-access value equal to the original. -/
theorem claim_C1_roundtrip {E : Type} [DecidableEq E]
    (w : CmdWorld) (conn : Conn E) (cmd : Command) (V : List (String × Bytes))
    (m : Message E)
    (h_new : Message.new conn cmd V = .ok m)
    (h_reg : lookupCmd w cmd.cmd = some cmd)
    (h_tok1 : cmd.cmd ≠ []) (h_tok2 : ' ' ∉ cmd.cmd)
    (h_tok3 : cmd.cmd.head? ≠ some ':')
    (h_set : ∀ v ∈ m.args.value, v ≠ none)
    (h_ne : ∀ b ∈ m.args.value.filterMap id, b ≠ [])
    (h_sent : ∀ b ∈ (m.args.value.filterMap id).dropLast, ¬ needsSentinel b)
    (h_place : ∀ p ∈ V, ∃ d, cmd.find? p.1 = some d ∧
      pyGet m.args.value d.idx = some (some p.2)) :
    ∃ line m2, Message.msgBytes conn m = .ok line ∧
      from_bytes w conn line = (some m2, w) ∧
      ∀ p ∈ V, Arguments.getattr w m2.args p.1 = .ok (some p.2) := by
  -- unpack the message built by Message.new
  unfold Message.new at h_new
  cases hfd : from_dict cmd (V.map (fun p => (ArgKey.name p.1, p.2))) with
  | error e => rw [hfd] at h_new; cases h_new
  | ok a =>
      rw [hfd] at h_new
      obtain rfl : (⟨conn.me, .known cmd, a, none⟩ : Message E) = m :=
        Option.some.inj (congrArg Except.toOption h_new)
      simp only [] at h_set h_ne h_sent h_place
      -- the resolved sequence and its bytes
      have hval : (a.value.filterMap id).map some = a.value := all_some_map a.value h_set
      have hseq : seqLen a.value = a.value.length := seqLen_all_some a.value h_set
      have hcount : sentinelCount (a.value.filterMap id) ≤ 1 :=
        sentinelCount_le_one _ h_sent
      -- serialization
      have henc : encodeArgs (a.value.take (seqLen a.value)) false =
          .ok ((a.value.filterMap id).map renderArg) := by
        rw [hseq, List.take_length]
        exact encodeArgs_ok a.value h_ne false (by simpa using hcount)
      have hmsg : Message.msgBytes conn (⟨conn.me, .known cmd, a, none⟩ : Message E) =
          .ok (joinSp (cmd.cmd :: (a.value.filterMap id).map renderArg)) := by
        unfold Message.msgBytes
        rw [henc]
        rw [if_pos rfl]
        rfl
      -- tokenizing the serialized line recovers command token and values
      have hsplit : argsplit (joinSp (cmd.cmd :: (a.value.filterMap id).map renderArg)) =
          cmd.cmd :: a.value.filterMap id :=
        argsplit_render cmd.cmd (a.value.filterMap id) h_tok2
          h_ne h_sent
      -- decoding
      have hg : get_command w cmd.cmd = (.known cmd, w) := by
        unfold get_command
        rw [h_reg]
      have hdec : from_bytes w conn
          (joinSp (cmd.cmd :: (a.value.filterMap id).map renderArg)) =
          (some ⟨conn.peer, .known cmd,
                ⟨(a.value.filterMap id).map some, .known cmd, []⟩,
                some (joinSp (cmd.cmd :: (a.value.filterMap id).map renderArg))⟩, w) := by
        unfold from_bytes
        rw [hsplit]
        dsimp only
        rw [if_neg h_tok1, if_neg h_tok3, hg]
      refine ⟨_, _, hmsg, hdec, ?_⟩
      -- named access on the decoded message
      intro p hp
      obtain ⟨d, hd, hpg⟩ := h_place p hp
      have hcontains : (CmdHandle.known cmd).containsW w p.1 = true := by
        show (cmd.find? p.1).isSome = true
        rw [hd]
        rfl
      unfold Arguments.getattr
      rw [hval]
      simp only [hcontains, not_true, ite_false, List.find?_nil]
      rw [show (CmdHandle.known cmd).findW w p.1 = cmd.find? p.1 from rfl, hd]
      dsimp only
      rw [hpg]
      simp [ArgDesc.from_bytes]

def mC1wit : Message String :=
  ⟨"me", .known pingCmd,
   ⟨[some (ofStr ("hi"))], .known pingCmd,
    [("token", some (ofStr ("hi")))]⟩, none⟩

theorem claim_C1_roundtrip_witness :
    ∃ line m2, Message.msgBytes sampleConn mC1wit = .ok line ∧
      from_bytes initWorld sampleConn line = (some m2, initWorld) ∧
      ∀ p ∈ [("token", ofStr ("hi"))],
        Arguments.getattr initWorld m2.args p.1 = .ok (some p.2) :=
  claim_C1_roundtrip initWorld sampleConn pingCmd [("token", ofStr ("hi"))]
    mC1wit rfl rfl (by decide) (by decide) (by decide) (by decide) (by decide)
    (by decide)
    (by
      intro p hp
      obtain rfl := List.mem_singleton.mp hp
      exact ⟨⟨"token", 0, none⟩, rfl, rfl⟩)
